import Mathlib

/-!
Verification development for the redb transactional storage engine.

The repository ships the unix file backend (`FileBackend` in
src/tree_store/page_store/file_backend/unix.rs) together with its
integration-test suite; the engine behind the public API is specified in
spec.md.  The definitions below embed, shallowly, the parts of the data
model and the operations that the checked properties speak about: table
contents as strictly key-sorted association lists (invariant I5), the
MVCC snapshot database, the two-phase free-list allocator, the
double-ended range cursor, durability and clean close, savepoints,
handle poisoning, the value-size ceiling, the advisory file lock, and
the master table of tables.  Components whose source is not in the
repository are modelled from the spec, as their doc comments state.
-/

namespace Redb

/-- Modelled from the spec: the logical contents of one table.  Keys and
values are abstracted to naturals; the entries are kept in strictly
ascending key order, which is invariant I5 of the spec. -/
abbrev Contents := List (Nat × Nat)

/-- Strictly ascending key order over a table's entries (invariant I5). -/
def sortedKeys (c : Contents) : Prop :=
  c.Pairwise (fun a b => a.1 < b.1)

instance (c : Contents) : Decidable (sortedKeys c) :=
  List.instDecidablePairwise c

/-- Modelled from the spec: B-tree point lookup, at most one match per key. -/
def getVal : Contents → Nat → Option Nat
  | [], _ => none
  | (k, v) :: rest, key => if key = k then some v else getVal rest key

/-- Modelled from the spec: B-tree insert; inserting a key equal to an
existing one replaces the value, otherwise the entry is placed at its
ordered position. -/
def insertKV : Contents → Nat → Nat → Contents
  | [], key, val => [(key, val)]
  | (k, v) :: rest, key, val =>
    if key < k then (key, val) :: (k, v) :: rest
    else if key = k then (key, val) :: rest
    else (k, v) :: insertKV rest key val

/-- Modelled from the spec: B-tree remove; deletes the entry with the
given key when present, otherwise leaves the tree unchanged. -/
def removeKV : Contents → Nat → Contents
  | [], _ => []
  | (k, v) :: rest, key => if key = k then rest else (k, v) :: removeKV rest key

/-- Insert a batch of pairs, left to right (later writes win). -/
def insertAll (ps : List (Nat × Nat)) (c : Contents) : Contents :=
  ps.foldl (fun acc e => insertKV acc e.1 e.2) c

/-- Remove a batch of keys, left to right. -/
def removeAllKeys (ks : List Nat) (c : Contents) : Contents :=
  ks.foldl removeKV c

theorem getVal_insertKV_self (c : Contents) (k v : Nat) :
    getVal (insertKV c k v) k = some v := by
  induction c with
  | nil => simp [insertKV, getVal]
  | cons hd tl ih =>
    obtain ⟨k0, v0⟩ := hd
    by_cases hlt : k < k0
    · simp [insertKV, hlt, getVal]
    · by_cases heq : k = k0
      · simp [insertKV, hlt, heq, getVal]
      · simp [insertKV, hlt, heq, getVal, ih]

theorem getVal_insertKV_ne (c : Contents) (k v k' : Nat) (h : k' ≠ k) :
    getVal (insertKV c k v) k' = getVal c k' := by
  induction c with
  | nil => simp [insertKV, getVal, h]
  | cons hd tl ih =>
    obtain ⟨k0, v0⟩ := hd
    by_cases hlt : k < k0
    · simp [insertKV, hlt, getVal, h]
    · by_cases heq : k = k0
      · subst heq
        simp [insertKV, hlt, getVal, h]
      · simp [insertKV, hlt, heq, getVal, ih]

theorem getVal_removeKV_ne (c : Contents) (k k' : Nat) (h : k' ≠ k) :
    getVal (removeKV c k) k' = getVal c k' := by
  induction c with
  | nil => simp [removeKV]
  | cons hd tl ih =>
    obtain ⟨k0, v0⟩ := hd
    by_cases heq : k = k0
    · subst heq
      simp [removeKV, getVal, h]
    · simp [removeKV, heq, getVal, ih]

theorem getVal_eq_none_of_forall_ne (c : Contents) (k : Nat)
    (h : ∀ e ∈ c, k ≠ e.1) : getVal c k = none := by
  induction c with
  | nil => simp [getVal]
  | cons hd tl ih =>
    obtain ⟨k0, v0⟩ := hd
    have hne : k ≠ k0 := h (k0, v0) (by simp)
    simp only [getVal, hne, if_false]
    exact ih fun e he => h e (by simp [he])

theorem getVal_mem (c : Contents) (k v : Nat) (h : getVal c k = some v) :
    (k, v) ∈ c := by
  induction c with
  | nil => simp [getVal] at h
  | cons hd tl ih =>
    obtain ⟨k0, v0⟩ := hd
    by_cases heq : k = k0
    · simp [getVal, heq] at h
      simp [heq, h]
    · simp [getVal, heq] at h
      simp [ih h]

theorem sortedKeys_tail {hd : Nat × Nat} {tl : Contents}
    (h : sortedKeys (hd :: tl)) : sortedKeys tl :=
  (List.pairwise_cons.mp h).2

theorem getVal_removeKV_self (c : Contents) (k : Nat) (hs : sortedKeys c) :
    getVal (removeKV c k) k = none := by
  induction c with
  | nil => simp [removeKV, getVal]
  | cons hd tl ih =>
    obtain ⟨k0, v0⟩ := hd
    by_cases heq : k = k0
    · subst heq
      simp only [removeKV, if_pos rfl]
      exact getVal_eq_none_of_forall_ne tl k
        (fun e he => Nat.ne_of_lt ((List.pairwise_cons.mp hs).1 e he))
    · simp only [removeKV, if_neg heq, getVal, if_neg heq]
      exact ih (sortedKeys_tail hs)

theorem removeKV_eq_of_getVal_none (c : Contents) (k : Nat)
    (h : getVal c k = none) : removeKV c k = c := by
  induction c with
  | nil => rfl
  | cons hd tl ih =>
    obtain ⟨k0, v0⟩ := hd
    by_cases heq : k = k0
    · simp [getVal, heq] at h
    · simp only [getVal, if_neg heq] at h
      simp [removeKV, heq, ih h]

theorem mem_insertKV (c : Contents) (k v : Nat) (e : Nat × Nat)
    (h : e ∈ insertKV c k v) : e = (k, v) ∨ e ∈ c := by
  induction c with
  | nil =>
    simp [insertKV] at h
    exact Or.inl h
  | cons hd tl ih =>
    obtain ⟨k0, v0⟩ := hd
    by_cases hlt : k < k0
    · simp [insertKV, hlt] at h
      rcases h with h | h | h
      · exact Or.inl (by simp [h])
      · exact Or.inr (by simp [h])
      · exact Or.inr (by simp [h])
    · by_cases heq : k = k0
      · simp [insertKV, hlt, heq] at h
        rcases h with h | h
        · exact Or.inl (by simp [h, heq])
        · exact Or.inr (by simp [h])
      · simp only [insertKV, if_neg hlt, if_neg heq, List.mem_cons] at h
        rcases h with h | h
        · exact Or.inr (by simp [h])
        · rcases ih h with h' | h'
          · exact Or.inl h'
          · exact Or.inr (by simp [h'])

theorem sortedKeys_insertKV (c : Contents) (k v : Nat) (hs : sortedKeys c) :
    sortedKeys (insertKV c k v) := by
  induction c with
  | nil => simp [insertKV, sortedKeys]
  | cons hd tl ih =>
    obtain ⟨k0, v0⟩ := hd
    have hhead := (List.pairwise_cons.mp hs).1
    have htl := (List.pairwise_cons.mp hs).2
    by_cases hlt : k < k0
    · simp only [insertKV, if_pos hlt]
      refine List.pairwise_cons.mpr ⟨?_, hs⟩
      intro e he
      rcases List.mem_cons.mp he with h | h
      · subst h
        exact hlt
      · exact Nat.lt_trans hlt (hhead e h)
    · by_cases heq : k = k0
      · subst heq
        simp only [insertKV, if_neg hlt, if_pos rfl]
        exact List.pairwise_cons.mpr ⟨hhead, htl⟩
      · simp only [insertKV, if_neg hlt, if_neg heq]
        refine List.pairwise_cons.mpr ⟨?_, ih htl⟩
        intro e he
        rcases mem_insertKV tl k v e he with h | h
        · subst h
          exact Nat.lt_of_le_of_ne (Nat.le_of_not_lt hlt) (Ne.symm heq)
        · exact hhead e h

theorem removeKV_sublist (c : Contents) (k : Nat) :
    (removeKV c k).Sublist c := by
  induction c with
  | nil => simp [removeKV]
  | cons hd tl ih =>
    obtain ⟨k0, v0⟩ := hd
    by_cases heq : k = k0
    · simp only [removeKV, if_pos heq]
      exact List.sublist_cons_self (k0, v0) tl
    · simp only [removeKV, if_neg heq]
      exact List.Sublist.cons₂ (k0, v0) ih

theorem sortedKeys_removeKV (c : Contents) (k : Nat) (hs : sortedKeys c) :
    sortedKeys (removeKV c k) :=
  hs.sublist (removeKV_sublist c k)

theorem sorted_getVal_ext (c d : Contents) (hc : sortedKeys c)
    (hd : sortedKeys d) (h : ∀ k, getVal c k = getVal d k) : c = d := by
  induction c generalizing d with
  | nil =>
    cases d with
    | nil => rfl
    | cons e d' =>
      obtain ⟨k2, v2⟩ := e
      have := h k2
      simp [getVal] at this
  | cons e c' ih =>
    obtain ⟨k1, v1⟩ := e
    cases d with
    | nil =>
      have := h k1
      simp [getVal] at this
    | cons f d' =>
      obtain ⟨k2, v2⟩ := f
      have h1 : getVal ((k2, v2) :: d') k1 = some v1 := by
        rw [← h k1]
        simp [getVal]
      have h2 : getVal ((k1, v1) :: c') k2 = some v2 := by
        rw [h k2]
        simp [getVal]
      have hk21 : k2 ≤ k1 := by
        by_cases heq : k1 = k2
        · exact Nat.le_of_eq heq.symm
        · simp only [getVal, if_neg heq] at h1
          exact Nat.le_of_lt ((List.pairwise_cons.mp hd).1 _ (getVal_mem d' k1 v1 h1))
      have hk12 : k1 ≤ k2 := by
        by_cases heq : k2 = k1
        · exact Nat.le_of_eq heq.symm
        · simp only [getVal, if_neg heq] at h2
          exact Nat.le_of_lt ((List.pairwise_cons.mp hc).1 _ (getVal_mem c' k2 v2 h2))
      have hk : k1 = k2 := Nat.le_antisymm hk12 hk21
      subst hk
      have hv : v1 = v2 := by
        have := h1
        simp [getVal] at this
        exact this.symm
      subst hv
      have htail : ∀ k, getVal c' k = getVal d' k := by
        intro k
        by_cases heq : k = k1
        · subst heq
          have hcnone : getVal c' k = none :=
            getVal_eq_none_of_forall_ne c' k
              (fun e he => Nat.ne_of_lt ((List.pairwise_cons.mp hc).1 e he))
          have hdnone : getVal d' k = none :=
            getVal_eq_none_of_forall_ne d' k
              (fun e he => Nat.ne_of_lt ((List.pairwise_cons.mp hd).1 e he))
          rw [hcnone, hdnone]
        · have := h k
          simpa [getVal, heq] using this
      have := ih (d := d') (sortedKeys_tail hc) (sortedKeys_tail hd) htail
      rw [this]

/-- Last value written for a key in a batch of pairs; later entries win. -/
def lastWrite : List (Nat × Nat) → Nat → Option Nat
  | [], _ => none
  | p :: ps, k =>
    match lastWrite ps k with
    | some v => some v
    | none => if p.1 = k then some p.2 else none

theorem insertAll_cons (p : Nat × Nat) (ps : List (Nat × Nat)) (c : Contents) :
    insertAll (p :: ps) c = insertAll ps (insertKV c p.1 p.2) := rfl

theorem getVal_insertAll (ps : List (Nat × Nat)) (c : Contents) (k : Nat) :
    getVal (insertAll ps c) k
      = match lastWrite ps k with
        | some v => some v
        | none => getVal c k := by
  induction ps generalizing c with
  | nil => simp [insertAll, lastWrite]
  | cons p ps ih =>
    rw [insertAll_cons, ih]
    cases hlw : lastWrite ps k with
    | some v => simp [lastWrite, hlw]
    | none =>
      by_cases hpk : p.1 = k
      · subst hpk
        simp [lastWrite, hlw, getVal_insertKV_self]
      · simp [lastWrite, hlw, hpk, getVal_insertKV_ne c p.1 p.2 k (Ne.symm hpk)]

theorem lastWrite_eq_none (ps : List (Nat × Nat)) (k : Nat)
    (h : ∀ p ∈ ps, p.1 ≠ k) : lastWrite ps k = none := by
  induction ps with
  | nil => rfl
  | cons p ps ih =>
    have hp : p.1 ≠ k := h p (by simp)
    have := ih fun q hq => h q (by simp [hq])
    simp [lastWrite, this, hp]

theorem getVal_insertAll_not_mem (ps : List (Nat × Nat)) (c : Contents) (k : Nat)
    (h : ∀ p ∈ ps, p.1 ≠ k) : getVal (insertAll ps c) k = getVal c k := by
  rw [getVal_insertAll, lastWrite_eq_none ps k h]

theorem sortedKeys_insertAll (ps : List (Nat × Nat)) (c : Contents)
    (hc : sortedKeys c) : sortedKeys (insertAll ps c) := by
  induction ps generalizing c with
  | nil => exact hc
  | cons p ps ih =>
    rw [insertAll_cons]
    exact ih _ (sortedKeys_insertKV c p.1 p.2 hc)

theorem removeAllKeys_cons (k : Nat) (ks : List Nat) (c : Contents) :
    removeAllKeys (k :: ks) c = removeAllKeys ks (removeKV c k) := rfl

theorem sortedKeys_removeAllKeys (ks : List Nat) (c : Contents)
    (hc : sortedKeys c) : sortedKeys (removeAllKeys ks c) := by
  induction ks generalizing c with
  | nil => exact hc
  | cons k ks ih =>
    rw [removeAllKeys_cons]
    exact ih _ (sortedKeys_removeKV c k hc)

theorem getVal_removeAllKeys_not_mem (ks : List Nat) (c : Contents) (k : Nat)
    (h : k ∉ ks) : getVal (removeAllKeys ks c) k = getVal c k := by
  induction ks generalizing c with
  | nil => rfl
  | cons k1 ks ih =>
    rw [removeAllKeys_cons, ih _ (fun hk => h (by simp [hk]))]
    exact getVal_removeKV_ne c k1 k (fun hk => h (by simp [hk]))

theorem getVal_removeAllKeys_none (ks : List Nat) (c : Contents) (k : Nat)
    (h : getVal c k = none) : getVal (removeAllKeys ks c) k = none := by
  induction ks generalizing c with
  | nil => exact h
  | cons k1 ks ih =>
    rw [removeAllKeys_cons]
    refine ih _ ?_
    by_cases hk : k = k1
    · subst hk
      rw [removeKV_eq_of_getVal_none c k h]
      exact h
    · rw [getVal_removeKV_ne c k1 k hk]
      exact h

theorem getVal_removeAllKeys_mem (ks : List Nat) (c : Contents) (k : Nat)
    (hc : sortedKeys c) (h : k ∈ ks) : getVal (removeAllKeys ks c) k = none := by
  induction ks generalizing c with
  | nil => simp at h
  | cons k1 ks ih =>
    rw [removeAllKeys_cons]
    by_cases hk : k = k1
    · subst hk
      exact getVal_removeAllKeys_none ks _ k (getVal_removeKV_self c k hc)
    · exact ih _ (sortedKeys_removeKV c k1 hc) (by simpa [hk] using h)

theorem removeAll_insertAll_id (ps : List (Nat × Nat)) (c : Contents)
    (hc : sortedKeys c) (hfresh : ∀ p ∈ ps, getVal c p.1 = none) :
    removeAllKeys (ps.map Prod.fst) (insertAll ps c) = c := by
  refine sorted_getVal_ext _ _
    (sortedKeys_removeAllKeys _ _ (sortedKeys_insertAll _ _ hc)) hc ?_
  intro k
  by_cases hk : k ∈ ps.map Prod.fst
  · rw [getVal_removeAllKeys_mem _ _ _ (sortedKeys_insertAll _ _ hc) hk]
    obtain ⟨p, hp, hpk⟩ := List.mem_map.mp hk
    rw [← hpk] at *
    exact (hfresh p hp).symm
  · rw [getVal_removeAllKeys_not_mem _ _ _ hk]
    exact getVal_insertAll_not_mem ps c k
      (fun p hp hpk => hk (List.mem_map.mpr ⟨p, hp, hpk⟩))

/-! ### MVCC snapshot database (claim C1) -/

/-- Modelled from the spec: the database as seen by the MVCC layer.  The
committed field is the state named by the current god page; every live
read transaction keeps, pinned, the snapshot it observed at begin
(invariant I4: pages reachable from that god page stay readable). -/
structure Database where
  committed : Contents
  snapshots : List (Nat × Contents)
  nextReader : Nat

def lookupSnapshot : List (Nat × Contents) → Nat → Option Contents
  | [], _ => none
  | (i, s) :: rest, rid => if rid = i then some s else lookupSnapshot rest rid

/-- Modelled from the spec: begin_read pins the current committed state as
the new reader's snapshot and hands back the reader's id. -/
def beginRead (db : Database) : Database × Nat :=
  ({ db with
      snapshots := (db.nextReader, db.committed) :: db.snapshots
      nextReader := db.nextReader + 1 },
    db.nextReader)

/-- Modelled from the spec: a write-transaction commit replaces the
committed root; the snapshots of live readers are untouched, because the
CoW B-tree never mutates a page referenced by a committed root. -/
def commitWrite (f : Contents → Contents) (db : Database) : Database :=
  { db with committed := f db.committed }

/-- A sequence of write transactions committed one after another. -/
def applyCommits (fs : List (Contents → Contents)) (db : Database) : Database :=
  fs.foldl (fun d f => commitWrite f d) db

/-- Modelled from the spec: get through a read transaction consults the
reader's pinned snapshot, never the newest committed state. -/
def readGet (db : Database) (rid k : Nat) : Option Nat :=
  (lookupSnapshot db.snapshots rid).bind (fun s => getVal s k)

/-- Modelled from the spec: len through a read transaction counts the
entries of the reader's pinned snapshot. -/
def readLen (db : Database) (rid : Nat) : Option Nat :=
  (lookupSnapshot db.snapshots rid).map List.length

theorem applyCommits_snapshots (fs : List (Contents → Contents)) (db : Database) :
    (applyCommits fs db).snapshots = db.snapshots := by
  induction fs generalizing db with
  | nil => rfl
  | cons f fs ih => exact ih (commitWrite f db)

/-- C1: a read transaction begun after a commit observes exactly the
snapshot current at its begin: whatever sequence of write transactions
commits afterwards, every get and every len performed through the reader
still return the values of that snapshot, so keys inserted or removed by
the later commits are invisible to the reader for as long as it lives. -/
theorem reader_snapshot_isolation (db : Database)
    (fs : List (Contents → Contents)) (k : Nat) :
    readGet (applyCommits fs (beginRead db).1) (beginRead db).2 k
        = getVal db.committed k
    ∧ readLen (applyCommits fs (beginRead db).1) (beginRead db).2
        = some db.committed.length := by
  constructor
  · rw [readGet, applyCommits_snapshots]
    simp [beginRead, lookupSnapshot]
  · rw [readLen, applyCommits_snapshots]
    simp [beginRead, lookupSnapshot]

/-! ### Two-phase free-list allocator (claim C2) -/

/-- Modelled from the spec: durability mode of a commit.  Immediate runs
both sync_data calls; None skips them.  Durability governs syncing only
and has no effect on page accounting. -/
inductive Durability
  | None
  | Immediate
deriving DecidableEq, Repr

/-- Modelled from the spec: the allocator-visible state between commits —
the committed logical contents, the freed-tree entries (freeing
transaction id paired with the number of pages that transaction
released), the next transaction id, and the transaction ids pinned by
live readers and savepoints. -/
structure AllocState where
  contents : Contents
  freedTree : List (Nat × Nat)
  nextTxn : Nat
  pinned : List Nat
deriving DecidableEq, Repr

/-- Modelled from the spec: a freed-tree entry is reclaimed at the commit
with transaction id t exactly when its freeing transaction id is smaller
than every pinned reader or savepoint id and smaller than t itself (the
entry being appended by the running commit is never drained by it). -/
def reclaimable (t : Nat) (pinned : List Nat) (e : Nat × Nat) : Bool :=
  decide (e.1 < t) && pinned.all (fun r => decide (e.1 < r))

/-- Modelled from the spec: one write-transaction commit.  The CoW
mutation writes the new version into fresh pages and releases the whole
footprint of the previous version through the pending-free path,
recording it in the freed-tree under the committing transaction id; the
commit also clears the allocator bit of every freed-tree entry that is
reclaimable and removes those entries.  The page footprint of a logical
state is abstracted by the function pc; the durability argument plays no
role in accounting. -/
def commitTxn (pc : Contents → Nat) (_d : Durability) (f : Contents → Contents)
    (st : AllocState) : AllocState :=
  { contents := f st.contents
    freedTree :=
      st.freedTree.filter (fun e => !reclaimable st.nextTxn st.pinned e)
        ++ [(st.nextTxn, pc st.contents)]
    nextTxn := st.nextTxn + 1
    pinned := st.pinned }

/-- Modelled from the spec: stats().allocated_pages() — the pages marked
allocated in the bitmap: the live footprint of the committed state plus
every page still waiting in the freed-tree (invariant I2). -/
def allocatedPages (pc : Contents → Nat) (st : AllocState) : Nat :=
  pc st.contents + (st.freedTree.map Prod.snd).sum

theorem filter_eq_nil_of_forall_false {α : Type} (p : α → Bool) (l : List α)
    (h : ∀ a ∈ l, p a = false) : l.filter p = [] := by
  induction l with
  | nil => rfl
  | cons a l ih =>
    rw [List.filter_cons, h a (by simp)]
    exact ih fun b hb => h b (by simp [hb])

/-- C2: with no reader and no savepoint pinned, commit a batch of inserts
of fresh keys, commit their removals, and let one further commit run:
every page released through the pending-free path is reclaimed and the
next write transaction's stats().allocated_pages() equals the baseline
measured before the inserts, under either durability mode. -/
theorem allocated_pages_return_to_baseline (pc : Contents → Nat)
    (d : Durability) (st : AllocState) (ps : List (Nat × Nat))
    (hpinned : st.pinned = [])
    (hsorted : sortedKeys st.contents)
    (hfresh : ∀ p ∈ ps, getVal st.contents p.1 = none)
    (hinv : ∀ e ∈ st.freedTree, e.1 < st.nextTxn) :
    (let stB := commitTxn pc d id st
     let st1 := commitTxn pc d (fun c => insertAll ps c) stB
     let st2 := commitTxn pc d (fun c => removeAllKeys (ps.map Prod.fst) c) st1
     let st3 := commitTxn pc d id st2
     allocatedPages pc st3 = allocatedPages pc stB) := by
  obtain ⟨c0, ft, t0, pn⟩ := st
  simp only at hpinned hsorted hfresh hinv
  subst hpinned
  have hdrain : ft.filter (fun e => !reclaimable t0 [] e) = [] := by
    refine filter_eq_nil_of_forall_false _ _ ?_
    intro e he
    simp [reclaimable, hinv e he]
  have hback : removeAllKeys (ps.map Prod.fst) (insertAll ps c0) = c0 :=
    removeAll_insertAll_id ps c0 hsorted hfresh
  simp only [commitTxn, allocatedPages, hdrain, id]
  simp [reclaimable, Nat.lt_succ_self, hback]

/-- Witness for C2 at a concrete footprint function, state and batch. -/
theorem allocated_pages_return_to_baseline_witness :
    (let pcW : Contents → Nat := fun c => 2 * c.length + 3
     let stW : AllocState := AllocState.mk [(5, 50)] [(0, 7)] 1 []
     let psW : List (Nat × Nat) := [(1, 10), (2, 20)]
     let stB := commitTxn pcW Durability.None id stW
     let st1 := commitTxn pcW Durability.None (fun c => insertAll psW c) stB
     let st2 := commitTxn pcW Durability.None
       (fun c => removeAllKeys (psW.map Prod.fst) c) st1
     let st3 := commitTxn pcW Durability.None id st2
     allocatedPages pcW st3 = allocatedPages pcW stB) :=
  allocated_pages_return_to_baseline (fun c => 2 * c.length + 3)
    Durability.None (AllocState.mk [(5, 50)] [(0, 7)] 1 []) [(1, 10), (2, 20)]
    rfl (by decide) (by decide) (by decide)

/-! ### Range queries and the double-ended cursor (claim C3) -/

/-- Modelled from the spec: range(lo, hi) selects exactly the stored
entries whose key k satisfies lo ≤ k < hi, keeping the stored order. -/
def rangeList (c : Contents) (lo hi : Nat) : Contents :=
  c.filter (fun e => decide (lo ≤ e.1) && decide (e.1 < hi))

/-- Modelled from the spec: the lazy, restartable range cursor; remaining
holds the entries not yet yielded and forward records the current
direction of the stack-based cursor. -/
structure RangeIter where
  remaining : Contents
  forward : Bool
deriving DecidableEq, Repr

/-- Modelled from the spec: table.range(lo, hi) starts a forward cursor
over the selected entries. -/
def tableRange (c : Contents) (lo hi : Nat) : RangeIter :=
  ⟨rangeList c lo hi, true⟩

/-- Modelled from the spec: rev() toggles the iteration direction; it may
be applied at any point of the iteration. -/
def RangeIter.rev (it : RangeIter) : RangeIter :=
  ⟨it.remaining, !it.forward⟩

/-- Modelled from the spec: next() yields the smallest not-yet-yielded
entry when the cursor runs forward and the largest when it runs
backward. -/
def RangeIter.next (it : RangeIter) : Option ((Nat × Nat) × RangeIter) :=
  if it.forward then
    match it.remaining with
    | [] => none
    | e :: rest => some (e, ⟨rest, true⟩)
  else
    match it.remaining.reverse with
    | [] => none
    | e :: restRev => some (e, ⟨restRev.reverse, false⟩)

/-- One step of driving the cursor: advance it, or flip its direction. -/
inductive Step
  | advance
  | flip
deriving DecidableEq, Repr

/-- Drive the cursor through a sequence of steps, collecting the yielded
entries; advancing an exhausted cursor yields nothing. -/
def RangeIter.run : RangeIter → List Step → List (Nat × Nat) × RangeIter
  | it, [] => ([], it)
  | it, Step.flip :: ops => it.rev.run ops
  | it, Step.advance :: ops =>
    match it.next with
    | none => it.run ops
    | some (e, it') =>
      let r := it'.run ops
      (e :: r.1, r.2)

theorem run_forward_all (l : Contents) :
    RangeIter.run ⟨l, true⟩ (List.replicate l.length Step.advance)
      = (l, ⟨[], true⟩) := by
  induction l with
  | nil => rfl
  | cons e rest ih =>
    simp [List.replicate_succ, RangeIter.run, RangeIter.next, ih]

theorem run_backward_all (r : Contents) :
    RangeIter.run ⟨r.reverse, false⟩ (List.replicate r.length Step.advance)
      = (r, ⟨[], false⟩) := by
  induction r with
  | nil => rfl
  | cons e rest ih =>
    simp [List.replicate_succ, RangeIter.run, RangeIter.next, ih]

theorem next_some (it : RangeIter) (e : Nat × Nat) (it' : RangeIter)
    (h : it.next = some (e, it')) :
    it.remaining = e :: it'.remaining ∨ it.remaining = it'.remaining ++ [e] := by
  obtain ⟨rem, fwd⟩ := it
  cases fwd with
  | true =>
    cases rem with
    | nil => simp [RangeIter.next] at h
    | cons a rest =>
      simp [RangeIter.next] at h
      left
      simp [h.1, ← h.2]
  | false =>
    cases hrev : rem.reverse with
    | nil => simp [RangeIter.next, hrev] at h
    | cons a restRev =>
      simp [RangeIter.next, hrev] at h
      right
      have hrem : rem = restRev.reverse ++ [a] := by
        have := congrArg List.reverse hrev
        simpa using this
      simp [hrem, h.1, ← h.2]

theorem run_perm (it : RangeIter) (ops : List Step) :
    ((it.run ops).1 ++ (it.run ops).2.remaining).Perm it.remaining := by
  induction ops generalizing it with
  | nil => simp [RangeIter.run]
  | cons s ops ih =>
    cases s with
    | flip =>
      simpa [RangeIter.run, RangeIter.rev] using ih it.rev
    | advance =>
      cases hn : it.next with
      | none => simpa [RangeIter.run, hn] using ih it
      | some pr =>
        obtain ⟨e, it'⟩ := pr
        have hrec :
            ((it.run (Step.advance :: ops)).1,
              (it.run (Step.advance :: ops)).2)
              = (e :: (it'.run ops).1, (it'.run ops).2) := by
          simp [RangeIter.run, hn]
        rcases next_some it e it' hn with hrem | hrem
        · rw [hrem]
          have : ((it.run (Step.advance :: ops)).1
              ++ (it.run (Step.advance :: ops)).2.remaining)
              = e :: ((it'.run ops).1 ++ (it'.run ops).2.remaining) := by
            rw [congrArg Prod.fst hrec, congrArg Prod.snd hrec]
            simp
          rw [this]
          exact (ih it').cons e
        · rw [hrem]
          have : ((it.run (Step.advance :: ops)).1
              ++ (it.run (Step.advance :: ops)).2.remaining)
              = e :: ((it'.run ops).1 ++ (it'.run ops).2.remaining) := by
            rw [congrArg Prod.fst hrec, congrArg Prod.snd hrec]
            simp
          rw [this]
          exact ((ih it').cons e).trans (List.perm_append_singleton e _).symm

/-- C3: range(lo, hi) yields exactly the stored entries with
lo ≤ key < hi, in ascending key order; rev() yields the same entries in
the opposite order; and under any interleaving of direction flips and
advances no entry is yielded twice, a fully exhausted cursor having
yielded every entry of the range exactly once. -/
theorem range_query_spec (c : Contents) (lo hi : Nat) (hs : sortedKeys c) :
    (∀ e, e ∈ rangeList c lo hi ↔ e ∈ c ∧ lo ≤ e.1 ∧ e.1 < hi)
    ∧ sortedKeys (rangeList c lo hi)
    ∧ (tableRange c lo hi).run
        (List.replicate (rangeList c lo hi).length Step.advance)
        = (rangeList c lo hi, ⟨[], true⟩)
    ∧ (tableRange c lo hi).rev.run
        (List.replicate (rangeList c lo hi).length Step.advance)
        = ((rangeList c lo hi).reverse, ⟨[], false⟩)
    ∧ ∀ ops : List Step,
        (((tableRange c lo hi).run ops).1
            ++ ((tableRange c lo hi).run ops).2.remaining).Perm
          (rangeList c lo hi)
        ∧ (((tableRange c lo hi).run ops).2.remaining = [] →
            ((tableRange c lo hi).run ops).1.Perm (rangeList c lo hi))
        ∧ ((tableRange c lo hi).run ops).1.Nodup := by
  have hsr : sortedKeys (rangeList c lo hi) :=
    hs.sublist (List.filter_sublist c)
  have hnodup : (rangeList c lo hi).Nodup :=
    hsr.imp fun hab => by
      intro heq
      rw [heq] at hab
      exact Nat.lt_irrefl _ hab
  refine ⟨?_, hsr, run_forward_all _, ?_, ?_⟩
  · intro e
    simp [rangeList, List.mem_filter]
  · have h4 := run_backward_all ((rangeList c lo hi).reverse)
    rw [List.reverse_reverse, List.length_reverse] at h4
    exact h4
  · intro ops
    have hperm := run_perm (tableRange c lo hi) ops
    refine ⟨hperm, ?_, ?_⟩
    · intro hempty
      have := hperm
      rw [hempty, List.append_nil] at this
      exact this
    · exact List.Nodup.of_append_left (hperm.nodup_iff.mpr hnodup)

/-- Witness for C3 at a concrete table and concrete bounds. -/
theorem range_query_spec_witness :
    sortedKeys [(1, 10), (4, 40), (6, 60)]
    ∧ (tableRange [(1, 10), (4, 40), (6, 60)] 2 7).run
        (List.replicate
          (rangeList [(1, 10), (4, 40), (6, 60)] 2 7).length Step.advance)
        = (rangeList [(1, 10), (4, 40), (6, 60)] 2 7, ⟨[], true⟩) :=
  ⟨by decide,
    (range_query_spec [(1, 10), (4, 40), (6, 60)] 2 7 (by decide)).2.2.1⟩

/-! ### Durability and clean close (claim C4) -/

/-- Modelled from the spec: the database file as the backend sees it.
onDisk is the state named by the newest valid god page among the bytes
written so far; durable is the part guaranteed to survive a crash, the
state as of the last sync_data. -/
structure DiskFile where
  onDisk : Contents
  durable : Contents
deriving DecidableEq, Repr

/-- Modelled from the spec: committing a write transaction writes the new
data pages and the god page; with durability Immediate both sync_data
calls run, so the new state is durable; with durability None the sync is
skipped and only the unsynced file advances. -/
def commitToDisk (d : Durability) (f : Contents → Contents)
    (db : DiskFile) : DiskFile :=
  { onDisk := f db.onDisk
    durable :=
      match d with
      | Durability.Immediate => f db.onDisk
      | Durability.None => db.durable }

/-- Modelled from the spec: a clean close performs a final sync, making
everything written so far durable. -/
def closeDb (db : DiskFile) : DiskFile :=
  { db with durable := db.onDisk }

/-- Modelled from the spec: a crash loses whatever was never synced. -/
def crashDb (db : DiskFile) : DiskFile :=
  { db with onDisk := db.durable }

/-- Modelled from the spec: reopening reads the newest valid god page of
the file and recovers the state it names. -/
def reopenContents (db : DiskFile) : Contents :=
  db.onDisk

/-- C4: pairs committed with durability None persist across a clean
close: after committing the batch with durability None, cleanly closing
the database (final sync) and reopening the file, every inserted pair
reads back with its last-inserted value. -/
theorem non_durable_commit_persists_clean_close (db : DiskFile)
    (ps : List (Nat × Nat)) (k v : Nat) (h : lastWrite ps k = some v) :
    getVal (reopenContents (closeDb
        (commitToDisk Durability.None (fun c => insertAll ps c) db))) k
      = some v
    ∧ (closeDb (commitToDisk Durability.None
        (fun c => insertAll ps c) db)).durable = insertAll ps db.onDisk := by
  constructor
  · simp [reopenContents, closeDb, commitToDisk, getVal_insertAll, h]
  · rfl

/-- Witness for C4 at a concrete file state and batch. -/
theorem non_durable_commit_persists_clean_close_witness :
    lastWrite [(3, 6), (3, 7), (8, 9)] 3 = some 7
    ∧ getVal (reopenContents (closeDb
        (commitToDisk Durability.None
          (fun c => insertAll [(3, 6), (3, 7), (8, 9)] c)
          (DiskFile.mk [(1, 1)] [])))) 3 = some 7 :=
  ⟨by decide,
    (non_durable_commit_persists_clean_close (DiskFile.mk [(1, 1)] [])
      [(3, 6), (3, 7), (8, 9)] 3 7 (by decide)).1⟩

/-! ### Savepoints (claim C5) -/

inductive SavepointError
  | invalidSavepoint
deriving DecidableEq, Repr

/-- Modelled from the spec: a savepoint captures the master roots at its
creation, stamped by its creation transaction id. -/
structure Savepoint where
  stamp : Nat
  saved : Contents
deriving DecidableEq, Repr

/-- Modelled from the spec: the writer-side savepoint bookkeeping — the
current contents, the stamp the next savepoint will receive, and the
stamps invalidated by earlier restores. -/
structure SavepointDb where
  committed : Contents
  nextStamp : Nat
  invalidated : List Nat
deriving DecidableEq, Repr

/-- Modelled from the spec: taking a savepoint captures the current state
under a fresh stamp. -/
def createSavepoint (db : SavepointDb) : Savepoint × SavepointDb :=
  (⟨db.nextStamp, db.committed⟩, { db with nextStamp := db.nextStamp + 1 })

/-- State after a successful restore: the working roots are replaced by
the savepoint's, and every stamp issued strictly later than the restored
savepoint's is invalidated. -/
def afterRestore (sp : Savepoint) (db : SavepointDb) : SavepointDb :=
  { committed := sp.saved
    nextStamp := db.nextStamp
    invalidated :=
      db.invalidated
        ++ (List.range db.nextStamp).filter (fun s => decide (sp.stamp < s)) }

/-- Modelled from the spec: restore_savepoint replaces the writer's
working roots with the savepoint's and invalidates every savepoint
created strictly later; restoring an already invalidated savepoint fails
with InvalidSavepoint. -/
def restoreSavepoint (sp : Savepoint) (db : SavepointDb) :
    Except SavepointError SavepointDb :=
  if sp.stamp ∈ db.invalidated then
    Except.error SavepointError.invalidSavepoint
  else
    Except.ok (afterRestore sp db)

/-- C5: after restoring savepoint A, restoring any savepoint B created
strictly later than A fails with InvalidSavepoint, while every savepoint
at most as old as A that was valid before the restore — A itself
included — can still be restored, and the state after restoring A is
exactly the state A captured. -/
theorem savepoint_restore_invalidates_later (db : SavepointDb)
    (A B : Savepoint) (hAB : A.stamp < B.stamp)
    (hBst : B.stamp < db.nextStamp)
    (hAval : A.stamp ∉ db.invalidated) (_hBval : B.stamp ∉ db.invalidated) :
    restoreSavepoint A db = Except.ok (afterRestore A db)
    ∧ (afterRestore A db).committed = A.saved
    ∧ restoreSavepoint B (afterRestore A db)
        = Except.error SavepointError.invalidSavepoint
    ∧ restoreSavepoint A (afterRestore A db)
        = Except.ok (afterRestore A (afterRestore A db))
    ∧ ∀ sp : Savepoint, sp.stamp ≤ A.stamp → sp.stamp ∉ db.invalidated →
        restoreSavepoint sp (afterRestore A db)
          = Except.ok (afterRestore sp (afterRestore A db)) := by
  have hvalid : ∀ sp : Savepoint, sp.stamp ≤ A.stamp →
      sp.stamp ∉ db.invalidated →
      sp.stamp ∉ (afterRestore A db).invalidated := by
    intro sp hle hval hmem
    rcases List.mem_append.mp hmem with hmem | hmem
    · exact hval hmem
    · have := (List.mem_filter.mp hmem).2
      simp at this
      exact Nat.not_lt_of_le hle this
  refine ⟨?_, rfl, ?_, ?_, ?_⟩
  · simp [restoreSavepoint, hAval]
  · have hmem : B.stamp ∈ (afterRestore A db).invalidated := by
      refine List.mem_append.mpr (Or.inr ?_)
      refine List.mem_filter.mpr ⟨List.mem_range.mpr hBst, by simp [hAB]⟩
    simp [restoreSavepoint, hmem]
  · simp [restoreSavepoint, hvalid A (Nat.le_refl _) hAval]
  · intro sp hle hval
    simp [restoreSavepoint, hvalid sp hle hval]

/-- Witness for C5 at concrete savepoints and a concrete state. -/
theorem savepoint_restore_invalidates_later_witness :
    restoreSavepoint (Savepoint.mk 0 [(0, 5)]) (SavepointDb.mk [] 2 [])
      = Except.ok (afterRestore (Savepoint.mk 0 [(0, 5)])
          (SavepointDb.mk [] 2 []))
    ∧ restoreSavepoint (Savepoint.mk 1 [])
        (afterRestore (Savepoint.mk 0 [(0, 5)]) (SavepointDb.mk [] 2 []))
      = Except.error SavepointError.invalidSavepoint :=
  ⟨(savepoint_restore_invalidates_later (SavepointDb.mk [] 2 [])
      (Savepoint.mk 0 [(0, 5)]) (Savepoint.mk 1 [])
      (by decide) (by decide) (by decide) (by decide)).1,
    (savepoint_restore_invalidates_later (SavepointDb.mk [] 2 [])
      (Savepoint.mk 0 [(0, 5)]) (Savepoint.mk 1 [])
      (by decide) (by decide) (by decide) (by decide)).2.2.1⟩

/-! ### I/O error poisoning (claim C6) -/

inductive StorageFailure
  | ioError
  | previousIoError
deriving DecidableEq, Repr

/-- Modelled from the spec: the storage backend as the commit path sees
it; when failOnSync is set, sync_data surfaces an I/O error to the
committing transaction. -/
structure Backend where
  failOnSync : Bool
deriving DecidableEq, Repr

/-- Modelled from the spec: a database handle carrying its poison flag
and the committed state. -/
structure Handle where
  poisoned : Bool
  committed : Contents
deriving DecidableEq, Repr

/-- Modelled from the spec: begin_write on a poisoned handle fails with
PreviousIo and changes nothing; on a healthy handle it succeeds. -/
def beginWrite (h : Handle) : Except StorageFailure Unit :=
  if h.poisoned then Except.error StorageFailure.previousIoError
  else Except.ok ()

/-- Modelled from the spec: commit drives the backend; when a backend
operation surfaces an I/O error the commit fails and the handle enters
the poisoned state, otherwise the new state is published. -/
def commitHandle (b : Backend) (f : Contents → Contents) (h : Handle) :
    Except StorageFailure Unit × Handle :=
  if b.failOnSync then
    (Except.error StorageFailure.ioError, { h with poisoned := true })
  else
    (Except.ok (), { h with committed := f h.committed })

/-- Modelled from the spec: dropping the handle and reopening the file
yields a fresh, unpoisoned handle over the recovered state. -/
def reopenHandle (h : Handle) : Handle :=
  { poisoned := false, committed := h.committed }

/-- C6: when a backend operation fails during commit, the commit returns
an error, the handle is poisoned, begin_write on it fails with PreviousIo
from then on (begin_write never clears the flag), and only dropping the
handle and reopening the database makes begin_write succeed again. -/
theorem io_error_poisons_handle (b : Backend) (f : Contents → Contents)
    (h : Handle) (hfail : b.failOnSync = true) :
    (commitHandle b f h).1 = Except.error StorageFailure.ioError
    ∧ (commitHandle b f h).2.poisoned = true
    ∧ beginWrite (commitHandle b f h).2
        = Except.error StorageFailure.previousIoError
    ∧ beginWrite (reopenHandle (commitHandle b f h).2) = Except.ok () := by
  simp [commitHandle, hfail, beginWrite, reopenHandle]

/-- Witness for C6 at a concrete failing backend and handle. -/
theorem io_error_poisons_handle_witness :
    (Backend.mk true).failOnSync = true
    ∧ (commitHandle (Backend.mk true) id (Handle.mk false [(1, 2)])).1
        = Except.error StorageFailure.ioError
    ∧ beginWrite (commitHandle (Backend.mk true) id
        (Handle.mk false [(1, 2)])).2
        = Except.error StorageFailure.previousIoError :=
  ⟨rfl,
    (io_error_poisons_handle (Backend.mk true) id
      (Handle.mk false [(1, 2)]) rfl).1,
    (io_error_poisons_handle (Backend.mk true) id
      (Handle.mk false [(1, 2)]) rfl).2.2.1⟩

/-! ### Value size ceiling (claim C7) -/

/-- Modelled from the spec: the ~3 GiB ceiling on a stored byte string. -/
def MAX_VALUE_LENGTH : Nat := 3 * 1024 * 1024 * 1024

/-- Modelled from the spec: a byte string, abstracted to an identity and
its length in bytes. -/
structure ByteSlice where
  ident : Nat
  size : Nat
deriving DecidableEq, Repr

/-- A table over byte-slice keys and values. -/
abbrev SliceTable := List (ByteSlice × ByteSlice)

inductive InsertFailure
  | valueTooLarge (n : Nat)
deriving DecidableEq, Repr

/-- Modelled from the spec: insert checks the size ceiling before any
mutation: an oversize key or value — or a pair whose combined size
exceeds the ceiling — fails with ValueTooLarge and leaves the table
untouched; otherwise the pair is stored. -/
def insertChecked (t : SliceTable) (k v : ByteSlice) :
    Option InsertFailure × SliceTable :=
  if MAX_VALUE_LENGTH < k.size then
    (some (InsertFailure.valueTooLarge k.size), t)
  else if MAX_VALUE_LENGTH < v.size then
    (some (InsertFailure.valueTooLarge v.size), t)
  else if MAX_VALUE_LENGTH < k.size + v.size then
    (some (InsertFailure.valueTooLarge (k.size + v.size)), t)
  else
    (none, t ++ [(k, v)])

/-- Apply a batch of inserts in order, each on the table left by the
previous one, keeping whatever the failing ones left unchanged. -/
def insertAllChecked (pairs : List (ByteSlice × ByteSlice))
    (t : SliceTable) : SliceTable :=
  pairs.foldl (fun acc p => (insertChecked acc p.1 p.2).2) t

/-- C7: an insert whose key or value exceeds the ~3 GiB ceiling returns a
ValueTooLarge error and leaves the table unchanged; after any number of
such failing inserts on a fresh table, the table is still empty. -/
theorem value_too_large_rejected (t : SliceTable) (k v : ByteSlice)
    (pairs : List (ByteSlice × ByteSlice))
    (hkv : MAX_VALUE_LENGTH < k.size ∨ MAX_VALUE_LENGTH < v.size)
    (hpairs : ∀ p ∈ pairs,
      MAX_VALUE_LENGTH < p.1.size ∨ MAX_VALUE_LENGTH < p.2.size) :
    (∃ n, (insertChecked t k v).1 = some (InsertFailure.valueTooLarge n))
    ∧ (insertChecked t k v).2 = t
    ∧ insertAllChecked pairs [] = [] := by
  have hsingle : ∀ (t' : SliceTable) (k' v' : ByteSlice),
      MAX_VALUE_LENGTH < k'.size ∨ MAX_VALUE_LENGTH < v'.size →
      (∃ n, (insertChecked t' k' v').1
          = some (InsertFailure.valueTooLarge n))
        ∧ (insertChecked t' k' v').2 = t' := by
    intro t' k' v' hkv'
    by_cases hk : MAX_VALUE_LENGTH < k'.size
    · exact ⟨⟨k'.size, by simp [insertChecked, hk]⟩, by simp [insertChecked, hk]⟩
    · have hv : MAX_VALUE_LENGTH < v'.size := hkv'.resolve_left hk
      exact ⟨⟨v'.size, by simp [insertChecked, hk, hv]⟩,
        by simp [insertChecked, hk, hv]⟩
  refine ⟨(hsingle t k v hkv).1, (hsingle t k v hkv).2, ?_⟩
  have hgen : ∀ (qs : List (ByteSlice × ByteSlice)) (t' : SliceTable),
      (∀ p ∈ qs, MAX_VALUE_LENGTH < p.1.size ∨ MAX_VALUE_LENGTH < p.2.size) →
      insertAllChecked qs t' = t' := by
    intro qs
    induction qs with
    | nil => intro t' _; rfl
    | cons q qs ih =>
      intro t' hq
      have hstep : (insertChecked t' q.1 q.2).2 = t' :=
        (hsingle t' q.1 q.2 (hq q (by simp))).2
      have : insertAllChecked (q :: qs) t'
          = insertAllChecked qs (insertChecked t' q.1 q.2).2 := rfl
      rw [this, hstep]
      exact ih t' fun p hp => hq p (by simp [hp])
  exact hgen pairs [] hpairs

/-- Witness for C7 at a concrete oversize pair and batch. -/
theorem value_too_large_rejected_witness :
    (MAX_VALUE_LENGTH < (ByteSlice.mk 0 (3 * 1024 * 1024 * 1024 + 1)).size
      ∨ MAX_VALUE_LENGTH < (ByteSlice.mk 1 1024).size)
    ∧ (insertChecked [] (ByteSlice.mk 0 (3 * 1024 * 1024 * 1024 + 1))
        (ByteSlice.mk 1 1024)).2 = []
    ∧ insertAllChecked
        [(ByteSlice.mk 0 (3 * 1024 * 1024 * 1024 + 1), ByteSlice.mk 1 1024)]
        [] = [] :=
  ⟨Or.inl (by decide),
    (value_too_large_rejected []
      (ByteSlice.mk 0 (3 * 1024 * 1024 * 1024 + 1)) (ByteSlice.mk 1 1024)
      [(ByteSlice.mk 0 (3 * 1024 * 1024 * 1024 + 1), ByteSlice.mk 1 1024)]
      (Or.inl (by decide)) (by decide)).2.1,
    (value_too_large_rejected []
      (ByteSlice.mk 0 (3 * 1024 * 1024 * 1024 + 1)) (ByteSlice.mk 1 1024)
      [(ByteSlice.mk 0 (3 * 1024 * 1024 * 1024 + 1), ByteSlice.mk 1 1024)]
      (Or.inl (by decide)) (by decide)).2.2⟩

/-! ### Exclusive advisory file lock (claim C8) -/

inductive DatabaseFailure
  | databaseAlreadyOpen
  | otherIoError
deriving DecidableEq, Repr

/-- Outcome of the flock call as FileBackend::new inspects it. -/
inductive FlockOutcome
  | success
  | wouldBlock
  | otherFailure
deriving DecidableEq, Repr

/-- Modelled from the spec: the OS-side advisory-lock state of the
database file. -/
structure OsFile where
  locked : Bool
deriving DecidableEq, Repr

/-- Modelled from the spec: flock(fd, LOCK_EX | LOCK_NB) — taking the
exclusive advisory lock without blocking succeeds when no handle holds
it and reports EWOULDBLOCK when another handle does. -/
def flockExclusive (f : OsFile) : FlockOutcome × OsFile :=
  if f.locked then (FlockOutcome.wouldBlock, f)
  else (FlockOutcome.success, OsFile.mk true)

/-- Modelled from the spec: flock(fd, LOCK_UN) releases the lock. -/
def flockUnlock (_f : OsFile) : OsFile :=
  OsFile.mk false

/-- A file backend handle over the locked file. -/
structure FileBackend where
  held : Bool
deriving DecidableEq, Repr

/-- Translated from src/src/tree_store/page_store/file_backend/unix.rs,
FileBackend::new: take the exclusive advisory lock non-blocking; when
flock reports EWOULDBLOCK fail with DatabaseAlreadyOpen, map any other
flock failure to an I/O error, and otherwise return the backend. -/
def FileBackend.new (f : OsFile) :
    Except DatabaseFailure (FileBackend × OsFile) :=
  match flockExclusive f with
  | (FlockOutcome.success, f') => Except.ok (FileBackend.mk true, f')
  | (FlockOutcome.wouldBlock, _) =>
    Except.error DatabaseFailure.databaseAlreadyOpen
  | (FlockOutcome.otherFailure, _) =>
    Except.error DatabaseFailure.otherIoError

/-- Translated from src/src/tree_store/page_store/file_backend/unix.rs,
FileBackend::close: flock(fd, LOCK_UN). -/
def FileBackend.close (_b : FileBackend) (f : OsFile) : OsFile :=
  flockUnlock f

/-- C8: opening an unlocked database file succeeds and takes the
exclusive advisory lock; while the lock is held a second open of the
same file fails with DatabaseAlreadyOpen; after the first handle closes,
the lock is released and a subsequent open succeeds. -/
theorem database_lock_exclusive (f : OsFile) (hf : f.locked = false) :
    FileBackend.new f = Except.ok (FileBackend.mk true, OsFile.mk true)
    ∧ FileBackend.new (OsFile.mk true)
        = Except.error DatabaseFailure.databaseAlreadyOpen
    ∧ FileBackend.new (FileBackend.close (FileBackend.mk true) (OsFile.mk true))
        = Except.ok (FileBackend.mk true, OsFile.mk true) := by
  obtain ⟨l⟩ := f
  simp only at hf
  subst hf
  exact ⟨rfl, rfl, rfl⟩

/-- Witness for C8 at the concrete unlocked file. -/
theorem database_lock_exclusive_witness :
    FileBackend.new (OsFile.mk false)
        = Except.ok (FileBackend.mk true, OsFile.mk true)
    ∧ FileBackend.new (OsFile.mk true)
        = Except.error DatabaseFailure.databaseAlreadyOpen :=
  ⟨(database_lock_exclusive (OsFile.mk false) rfl).1,
    (database_lock_exclusive (OsFile.mk false) rfl).2.1⟩

/-! ### Master table, dropped writes and delete_table (claims C9, C10) -/

inductive TableFailure
  | tableDoesNotExist (name : String)
deriving DecidableEq, Repr

/-- Association lookup over a string-named master list. -/
def assocFind {α : Type} : List (String × α) → String → Option α
  | [], _ => none
  | (n, a) :: rest, name => if name = n then some a else assocFind rest name

/-- Modelled from the spec: the user master table, mapping each table
name to that table's root, abstracted to the table's contents. -/
abbrev Master := List (String × Contents)

/-- Modelled from the spec: the master of multimap tables, mapping each
name to the multimap contents (key to sorted set of values). -/
abbrev MultimapMaster := List (String × List (Nat × List Nat))

/-- A database handle for the table-level API: the committed master. -/
structure MasterDb where
  committed : Master
deriving DecidableEq, Repr

/-- Modelled from the spec: a write transaction's private working copy of
the master; its writes stay invisible to others until commit. -/
structure MasterTxn where
  working : Master
deriving DecidableEq, Repr

/-- Modelled from the spec: begin_write snapshots the committed master as
the transaction's working copy. -/
def beginMasterWrite (db : MasterDb) : MasterTxn :=
  ⟨db.committed⟩

/-- Replace the named table's contents inside a master. -/
def updateTable (m : Master) (name : String) (c : Contents) : Master :=
  m.map (fun e => if e.1 = name then (name, c) else e)

/-- Operations a write transaction can apply to its working master. -/
inductive TxnOp
  | createTable (name : String)
  | insertInto (name : String) (k v : Nat)
deriving DecidableEq, Repr

/-- Modelled from the spec: open_table creates the named table on first
open inside a write transaction; insert writes into the working copy. -/
def applyTxnOp (t : MasterTxn) : TxnOp → MasterTxn
  | TxnOp.createTable name =>
    match assocFind t.working name with
    | some _ => t
    | none => ⟨(name, []) :: t.working⟩
  | TxnOp.insertInto name k v =>
    match assocFind t.working name with
    | some c => ⟨updateTable t.working name (insertKV c k v)⟩
    | none => t

/-- Modelled from the spec: commit publishes the working master. -/
def commitMaster (t : MasterTxn) : MasterDb :=
  ⟨t.working⟩

/-- Modelled from the spec: dropping a write transaction without commit
aborts it — the working copy is discarded and the committed state is
untouched. -/
def dropMasterTxn (db : MasterDb) (_t : MasterTxn) : MasterDb :=
  db

/-- Modelled from the spec: open_table from a read transaction consults
the committed master and fails with TableDoesNotExist for an unknown
name. -/
def readOpenTable (db : MasterDb) (name : String) :
    Except TableFailure Contents :=
  match assocFind db.committed name with
  | some c => Except.ok c
  | none => Except.error (TableFailure.tableDoesNotExist name)

/-- C9: dropping a write transaction without commit aborts it and leaves
the committed state unchanged, so a table created and written only
inside the dropped transaction does not exist afterwards and opening it
from a later read transaction fails with TableDoesNotExist — whereas
committing the same creation would have made the table visible. -/
theorem dropped_write_discards (db : MasterDb) (name : String)
    (ops : List TxnOp) (habs : assocFind db.committed name = none) :
    dropMasterTxn db (ops.foldl applyTxnOp (beginMasterWrite db)) = db
    ∧ readOpenTable
        (dropMasterTxn db (ops.foldl applyTxnOp (beginMasterWrite db))) name
        = Except.error (TableFailure.tableDoesNotExist name)
    ∧ readOpenTable
        (commitMaster (applyTxnOp (beginMasterWrite db)
          (TxnOp.createTable name))) name
        = Except.ok [] := by
  refine ⟨rfl, ?_, ?_⟩
  · simp [dropMasterTxn, readOpenTable, habs]
  · simp [applyTxnOp, beginMasterWrite, habs, commitMaster, readOpenTable,
      assocFind]

/-- Witness for C9 at a concrete database, table name and operation
list. -/
theorem dropped_write_discards_witness :
    assocFind (MasterDb.mk [("u64", [(0, 0)])]).committed "x" = none
    ∧ readOpenTable
        (dropMasterTxn (MasterDb.mk [("u64", [(0, 0)])])
          ([TxnOp.createTable "x", TxnOp.insertInto "x" 1 2].foldl applyTxnOp
            (beginMasterWrite (MasterDb.mk [("u64", [(0, 0)])])))) "x"
        = Except.error (TableFailure.tableDoesNotExist "x") :=
  ⟨by decide,
    (dropped_write_discards (MasterDb.mk [("u64", [(0, 0)])]) "x"
      [TxnOp.createTable "x", TxnOp.insertInto "x" 1 2] (by decide)).2.1⟩

/-- Modelled from the spec: delete_table (and delete_multimap_table)
walks the named table's tree freeing its pages and removes its master
entry; it reports whether a table of that name existed. -/
def deleteTableG {α : Type} (m : List (String × α)) (name : String) :
    Bool × List (String × α) :=
  match assocFind m name with
  | some _ => (true, m.filter (fun e => decide (e.1 ≠ name)))
  | none => (false, m)

/-- delete_table on the user master. -/
def deleteTable (m : Master) (name : String) : Bool × Master :=
  deleteTableG m name

/-- delete_multimap_table on the multimap master. -/
def deleteMultimapTable (mm : MultimapMaster) (name : String) :
    Bool × MultimapMaster :=
  deleteTableG mm name

theorem assocFind_filter_ne {α : Type} (m : List (String × α))
    (name : String) :
    assocFind (m.filter (fun e => !decide (e.1 = name))) name = none := by
  induction m with
  | nil => rfl
  | cons e rest ih =>
    obtain ⟨n, a⟩ := e
    by_cases he : n = name
    · simp [List.filter_cons, he, ih]
    · simp [List.filter_cons, he, assocFind, Ne.symm he, ih]

theorem deleteTableG_spec {α : Type} (m : List (String × α))
    (name : String) :
    (deleteTableG m name).1 = (assocFind m name).isSome
    ∧ assocFind (deleteTableG m name).2 name = none
    ∧ (deleteTableG (deleteTableG m name).2 name).1 = false := by
  cases hfind : assocFind m name with
  | none =>
    refine ⟨by simp [deleteTableG, hfind], ?_, ?_⟩
    · simp [deleteTableG, hfind]
    · simp [deleteTableG, hfind]
  | some c =>
    have hnone : assocFind (m.filter (fun e => !decide (e.1 = name))) name
        = none := assocFind_filter_ne m name
    refine ⟨by simp [deleteTableG, hfind], ?_, ?_⟩
    · simp [deleteTableG, hfind, hnone]
    · simp [deleteTableG, hfind, hnone]

/-- C10: delete_table and delete_multimap_table report true when the
named table existed — removing it — and false, not an error, when it did
not; deleting the same table twice in one write transaction therefore
yields true then false. -/
theorem delete_table_reports_existence (m : Master) (mm : MultimapMaster)
    (name : String) :
    ((deleteTable m name).1 = (assocFind m name).isSome
      ∧ assocFind (deleteTable m name).2 name = none
      ∧ (deleteTable (deleteTable m name).2 name).1 = false)
    ∧ ((deleteMultimapTable mm name).1 = (assocFind mm name).isSome
      ∧ assocFind (deleteMultimapTable mm name).2 name = none
      ∧ (deleteMultimapTable (deleteMultimapTable mm name).2 name).1
          = false) :=
  ⟨deleteTableG_spec m name, deleteTableG_spec mm name⟩

end Redb
